import Mathlib

/-!
Verification of the finance-scraper repository's specification against a
shallow embedding of its code.

Conventions of the embedding:
* Python strings are `List Char`; `String.data` is used to write concrete ones.
* Python floats are modelled as exact rationals `ℚ` (the programs only build
  them from decimal literals and compare them).
* Python's `re` module is modelled by a small backtracking engine over a
  regex AST; the fixed patterns of the source are compiled by hand, with the
  `IGNORECASE`/`DOTALL` flags baked into the compiled pattern.
* Fallible Python operations (`float(...)`) return `Option`/`Except`.
-/

namespace FinanceScraper

set_option maxRecDepth 100000

/-- The set of characters Python treats as whitespace, both for `str.strip()`
and for the regex class `\s` on `str` patterns. -/
def pySpace (c : Char) : Bool :=
  (c.toNat ∈ ([0x20, 0x9, 0xa, 0xd, 0xb, 0xc,
        0x1c, 0x1d, 0x1e, 0x1f, 0x85, 0xa0, 0x1680,
        0x2000, 0x2001, 0x2002, 0x2003, 0x2004, 0x2005, 0x2006,
        0x2007, 0x2008, 0x2009, 0x200a, 0x2028, 0x2029, 0x202f,
        0x205f, 0x3000] : List Nat))

/-- `lstartsWith p s` : the word `p` occurs at the very start of `s`
(Python `s.startswith(p)`). -/
def lstartsWith : List Char → List Char → Bool
  | [], _ => true
  | _ :: _, [] => false
  | a :: as, b :: bs => a == b && lstartsWith as bs

/-- `hasSubstr p s` : the word `p` occurs contiguously inside `s`
(Python `p in s`). -/
def hasSubstr (p : List Char) : List Char → Bool
  | [] => lstartsWith p []
  | c :: cs => lstartsWith p (c :: cs) || hasSubstr p cs

/-- Remove trailing characters satisfying `pr` (the tail half of
Python `str.strip()`). -/
def dropTrail (pr : Char → Bool) (l : List Char) : List Char :=
  l.foldr (fun c acc => if acc.isEmpty && pr c then [] else c :: acc) []

/-- Python `str.strip()`: remove leading and trailing whitespace. -/
def pyStrip (l : List Char) : List Char :=
  dropTrail pySpace (l.dropWhile pySpace)

/-- Worker for `re.sub(r'\s+', ' ', ·)`: `afterSp` records whether we are
inside a whitespace run whose single replacement space was already emitted. -/
def collapseGo (afterSp : Bool) : List Char → List Char
  | [] => []
  | c :: cs =>
      if pySpace c then
        if afterSp then collapseGo true cs else ' ' :: collapseGo true cs
      else c :: collapseGo false cs

/-- `re.sub(r'\s+', ' ', l)`: collapse every whitespace run to one space. -/
def collapseWS (l : List Char) : List Char := collapseGo false l

/-- The placeholder token sequence `[‚óè]` removed by `_clean_text`
(codepoints `[`, U+201A, U+00F3, U+00E8, `]` as written in the source). -/
def placeholderTok : List Char := ['[', '‚', 'ó', 'è', ']']

/-- `re.sub(r'\[‚óè\]', '', l)`: delete each non-overlapping occurrence of
the placeholder token, scanning left to right. -/
def removeP : List Char → List Char
  | '[' :: '‚' :: 'ó' :: 'è' :: ']' :: rest => removeP rest
  | c :: cs => c :: removeP cs
  | [] => []

/-- `IPODataExtractor._clean_text` on a present string: strip, collapse
whitespace runs, delete placeholder tokens, strip again.  The empty string
is returned unchanged (`if not text`). -/
def cleanText (text : List Char) : List Char :=
  if text.isEmpty then []
  else pyStrip (removeP (collapseWS (pyStrip text)))

/-- `IPODataExtractor._clean_text` with the argument possibly `None`. -/
def cleanTextO : Option (List Char) → List Char
  | none => []
  | some t => cleanText t

/-! ## A model of Python `re` for the fixed patterns used by the source

The engine returns the backtracking outcomes of a pattern at a position in
priority order; `re.search` semantics are: leftmost starting position, first
outcome there.  `IGNORECASE`/`DOTALL` are baked into each compiled pattern. -/

/-- Captures of a match: group index paired with the captured text. -/
abbrev Caps := List (Nat × List Char)

/-- `match.group(n)`: the last capture recorded for group `n`, if any. -/
def capGet (caps : Caps) (n : Nat) : Option (List Char) :=
  (caps.reverse.find? (fun pr => pr.1 == n)).map (·.2)

/-- Regex AST: empty word, single-character predicate, concatenation,
prioritized alternation, star (greedy flag), capturing group. -/
inductive Rx : Type where
  | eps : Rx
  | cpred : (Char → Bool) → Rx
  | seq : Rx → Rx → Rx
  | alt : Rx → Rx → Rx
  | star : Bool → Rx → Rx
  | grp : Nat → Rx → Rx

/-- Structural size of a pattern, used to budget the matcher's fuel. -/
def rxSize : Rx → Nat
  | .eps => 1
  | .cpred _ => 1
  | .seq a b => rxSize a + rxSize b + 1
  | .alt a b => rxSize a + rxSize b + 1
  | .star _ r => rxSize r + 1
  | .grp _ r => rxSize r + 1

/-- All ways a pattern can match a prefix of `s`, listed in Python's
backtracking priority order as `(remaining input, captures)` pairs.
A star iteration must consume input (true of every starred subpattern in
the source's patterns) and fuel decreases at each step, so the recursion
is structural. -/
def reM : Nat → Rx → List Char → List (List Char × Caps)
  | 0, _, _ => []
  | fuel + 1, r, s =>
    match r with
    | .eps => [(s, [])]
    | .cpred p =>
        match s with
        | [] => []
        | c :: cs => if p c then [(cs, [])] else []
    | .seq a b =>
        (reM fuel a s).flatMap (fun pr =>
          (reM fuel b pr.1).map (fun qr => (qr.1, pr.2 ++ qr.2)))
    | .alt a b => reM fuel a s ++ reM fuel b s
    | .grp n r' =>
        (reM fuel r' s).map (fun pr =>
          (pr.1, pr.2 ++ [(n, s.take (s.length - pr.1.length))]))
    | .star greedy r' =>
        let step :=
          (reM fuel r' s).flatMap (fun pr =>
            if pr.1.length < s.length then
              (reM fuel (.star greedy r') pr.1).map
                (fun qr => (qr.1, pr.2 ++ qr.2))
            else [])
        if greedy then step ++ [(s, [])] else (s, []) :: step

/-- Fuel sufficient for `reM`: call depth is bounded by one structural
descent per star restart, and each restart consumes at least one character. -/
def fuelFor (r : Rx) (s : List Char) : Nat :=
  (s.length + 1) * (rxSize r + 1) + 1

/-- Try the pattern at the current position only: Python's choice is the
first backtracking outcome. -/
def reMatchAt (r : Rx) (s : List Char) : Option Caps :=
  ((reM (fuelFor r s) r s).head?).map (·.2)

/-- `re.search`: try every start position from the left, including the
end-of-string position. -/
def reSearchGo (r : Rx) : List Char → Option Caps
  | [] => reMatchAt r []
  | c :: cs =>
    match reMatchAt r (c :: cs) with
    | some caps => some caps
    | none => reSearchGo r cs

/-- `re.search(pattern, s)` returning the captures of the match, if any. -/
def reSearch (r : Rx) (s : List Char) : Option Caps :=
  reSearchGo r s

/-! ### Compilation helpers -/

/-- Literal character. -/
def rchar (c : Char) : Rx := .cpred (fun x => x == c)

/-- Literal character under `IGNORECASE`. -/
def rcharCi (c : Char) : Rx := .cpred (fun x => x.toLower == c.toLower)

/-- Literal word. -/
def rstr (s : String) : Rx := s.data.foldr (fun c acc => .seq (rchar c) acc) .eps

/-- Literal word under `IGNORECASE`. -/
def rstrCi (s : String) : Rx :=
  s.data.foldr (fun c acc => .seq (rcharCi c) acc) .eps

/-- `\d` (ASCII digits, as produced by the source's documents). -/
def rdig : Rx := .cpred Char.isDigit

/-- `\s`. -/
def rwsp : Rx := .cpred pySpace

/-- `.` without `DOTALL`. -/
def rdot : Rx := .cpred (fun c => !(c == '\n'))

/-- `.` with `DOTALL`. -/
def rdotA : Rx := .cpred (fun _ => true)

/-- `r+` with greediness flag. -/
def rplus (g : Bool) (r : Rx) : Rx := .seq r (.star g r)

/-- Greedy `r?`. -/
def ropt (r : Rx) : Rx := .alt r .eps

/-- Character class `[...]`. -/
def rin (cs : List Char) : Rx := .cpred (fun c => cs.contains c)

/-- Negated character class `[^...]`. -/
def rnot (cs : List Char) : Rx := .cpred (fun c => !cs.contains c)

/-- Concatenation of a pattern list. -/
def seqL (rs : List Rx) : Rx := rs.foldr .seq .eps

/-- Prioritized alternation of a pattern list. -/
def altL (rs : List Rx) : Rx := rs.foldr .alt (.cpred (fun _ => false))

/-! ### The source's compiled patterns -/

/-- The mojibake currency marker `‚Çπ` as written in the source
(codepoints U+201A, U+00C7, U+03C0). -/
def curMark : List Char := ['‚', 'Ç', 'π']

/-- Group 1 of the numeric patterns: `([\d,]+\.?\d*)`. -/
def numG1 : Rx :=
  .grp 1 (seqL [rplus true (.cpred (fun c => c.isDigit || c == ',')),
                ropt (rchar '.'), .star true rdig])

/-- `_extract_currency_value`'s pattern
`[‚ÇπRs.]*\s*([\d,]+\.?\d*)\s*(Cr\.?|Crore|Lakh|Lakhs)?` (no flags). -/
def currencyRx : Rx :=
  seqL [.star true (rin ['‚', 'Ç', 'π', 'R', 's', '.']),
        .star true rwsp, numG1, .star true rwsp,
        ropt (.grp 2 (altL [.seq (rstr "Cr") (ropt (rchar '.')),
                            rstr "Crore", rstr "Lakh", rstr "Lakhs"]))]

/-- `<b[^>]*>` under `IGNORECASE`. -/
def bOpenTag : Rx := seqL [rstrCi "<b", .star true (rnot ['>']), rchar '>']

/-- `([^<]+)` as group 1. -/
def grp1NonLt : Rx := .grp 1 (rplus true (rnot ['<']))

/-- `_extract_pricing` size pattern 1 (`IGNORECASE`):
`IPO size is.*?<b>‚Çπ\s*([\d,]+\.?\d*)\s*(Cr\.?|Crore)`. -/
def sizeP1 : Rx :=
  seqL [rstrCi "IPO size is", .star false rdot, rstrCi "<b>", rstr "‚Çπ",
        .star true rwsp, numG1, .star true rwsp,
        .grp 2 (altL [.seq (rstrCi "Cr") (ropt (rchar '.')), rstrCi "Crore"])]

/-- `_extract_pricing` size pattern 2 (`IGNORECASE`):
`ipo size of ‚Çπ\s*([\d,]+\.?\d*)\s*(Cr\.?)`. -/
def sizeP2 : Rx :=
  seqL [rstrCi "ipo size of ", rstr "‚Çπ", .star true rwsp, numG1,
        .star true rwsp, .grp 2 (.seq (rstrCi "Cr") (ropt (rchar '.')))]

/-- `_extract_pricing` size pattern 3 (`IGNORECASE`):
`IPO\s+Size\s*:.*?<b[^>]*>‚Çπ\s*([\d,]+\.?\d*)\s*(Cr\.?)`. -/
def sizeP3 : Rx :=
  seqL [rstrCi "IPO", rplus true rwsp, rstrCi "Size", .star true rwsp,
        rchar ':', .star false rdot, bOpenTag, rstr "‚Çπ", .star true rwsp,
        numG1, .star true rwsp, .grp 2 (.seq (rstrCi "Cr") (ropt (rchar '.')))]

/-- The ordered size fallback chain of `_extract_pricing`. -/
def sizePatterns : List Rx := [sizeP1, sizeP2, sizeP3]

/-- `_extract_pricing` price pattern 1 (`IGNORECASE`):
`Issue Price\s*:.*?<b[^>]*>‚Çπ\s*([\d,]+\.?\d*)`. -/
def priceP1 : Rx :=
  seqL [rstrCi "Issue Price", .star true rwsp, rchar ':', .star false rdot,
        bOpenTag, rstr "‚Çπ", .star true rwsp, numG1]

/-- `_extract_pricing` price pattern 2 (`IGNORECASE`):
`IPO price of.*?<b>‚Çπ\s*([\d,]+\.?\d*)</b>`. -/
def priceP2 : Rx :=
  seqL [rstrCi "IPO price of", .star false rdot, rstrCi "<b>", rstr "‚Çπ",
        .star true rwsp, numG1, rstrCi "</b>"]

/-- The ordered price fallback chain of `_extract_pricing`. -/
def pricePatterns : List Rx := [priceP1, priceP2]

/-- `upper price band.*?is set at ‚Çπ\s*([\d,]+\.?\d*)` (`IGNORECASE`). -/
def bandP : Rx :=
  seqL [rstrCi "upper price band", .star false rdot, rstrCi "is set at ",
        rstr "‚Çπ", .star true rwsp, numG1]

/-- `Face Value.*?‚Çπ\s*([\d,]+\.?\d*)` (`IGNORECASE`). -/
def faceP : Rx :=
  seqL [rstrCi "Face Value", .star false rdot, rstr "‚Çπ",
        .star true rwsp, numG1]

/-- `(?:Lot Size|Market Lot|lot size).*?(\d+)\s*(?:shares?)?` (`IGNORECASE`). -/
def lotP : Rx :=
  seqL [altL [rstrCi "Lot Size", rstrCi "Market Lot", rstrCi "lot size"],
        .star false rdot, .grp 1 (rplus true rdig), .star true rwsp,
        ropt (.seq (rstrCi "share") (ropt (rcharCi 's')))]

/-- `_extract_dates` pattern for `drhp_date` (`IGNORECASE | DOTALL`):
`(?:Date of DRHP|filed its Draft Red Herring Prospectus.*?on).*?<b[^>]*>([^<]+)</b>`. -/
def drhpDateRx : Rx :=
  seqL [.alt (rstrCi "Date of DRHP")
             (seqL [rstrCi "filed its Draft Red Herring Prospectus",
                    .star false rdotA, rstrCi "on"]),
        .star false rdotA, bOpenTag, grp1NonLt, rstrCi "</b>"]

/-- `_extract_dates` pattern for `ipo_open_date`:
`IPO open date is.*?<b[^>]*>([^<]+)</b>`. -/
def openDateRx : Rx :=
  seqL [rstrCi "IPO open date is", .star false rdotA, bOpenTag,
        grp1NonLt, rstrCi "</b>"]

/-- `_extract_dates` pattern for `ipo_close_date`:
`(?:close|IPO Close).*?date is.*?<b[^>]*>([^<]+)</b>`. -/
def closeDateRx : Rx :=
  seqL [.alt (rstrCi "close") (rstrCi "IPO Close"), .star false rdotA,
        rstrCi "date is", .star false rdotA, bOpenTag, grp1NonLt,
        rstrCi "</b>"]

/-- `_extract_dates` pattern for `allotment_date`:
`(?:IPO )?Allotment Date is.*?<b[^>]*>([^<]+)</b>`. -/
def allotDateRx : Rx :=
  seqL [ropt (rstrCi "IPO "), rstrCi "Allotment Date is",
        .star false rdotA, bOpenTag, grp1NonLt, rstrCi "</b>"]

/-- `_extract_dates` pattern for `refund_date`:
`(?:Initiation of Refund|refund dates).*?<b[^>]*>([^<]+)</b>`. -/
def refundDateRx : Rx :=
  seqL [.alt (rstrCi "Initiation of Refund") (rstrCi "refund dates"),
        .star false rdotA, bOpenTag, grp1NonLt, rstrCi "</b>"]

/-- `_extract_dates` pattern for `listing_date`:
`Listing date is.*?<b[^>]*>([^<]+)</b>`. -/
def listDateRx : Rx :=
  seqL [rstrCi "Listing date is", .star false rdotA, bOpenTag,
        grp1NonLt, rstrCi "</b>"]

/-- The six labelled date patterns of `_extract_dates`, keyed by their
output field name, in the source's dictionary order. -/
def dateFields : List (String × Rx) :=
  [("drhp_date", drhpDateRx), ("ipo_open_date", openDateRx),
   ("ipo_close_date", closeDateRx), ("allotment_date", allotDateRx),
   ("refund_date", refundDateRx), ("listing_date", listDateRx)]

/-- The calendar-date shape check of `_extract_dates` (no flags):
`\d{1,2}(?:st|nd|rd|th)\s+(?:January|...|December)\s+\d{4}`. -/
def dateShapeRx : Rx :=
  seqL [rdig, ropt rdig,
        altL [rstr "st", rstr "nd", rstr "rd", rstr "th"],
        rplus true rwsp,
        altL [rstr "January", rstr "February", rstr "March", rstr "April",
              rstr "May", rstr "June", rstr "July", rstr "August",
              rstr "September", rstr "October", rstr "November",
              rstr "December"],
        rplus true rwsp, rdig, rdig, rdig, rdig]

/-- `re.search(date_regex, text)` used to validate a recovered date value. -/
def hasDateShape (s : List Char) : Bool := (reSearch dateShapeRx s).isSome

/-! ## A model of `difflib.SequenceMatcher.ratio`

For inputs shorter than 200 characters (the autojunk threshold) the matcher
has no junk, and `find_longest_match` returns the longest common substring,
tie-broken by earliest start in the first string and then in the second. -/

/-- Length of the longest common prefix of two words. -/
def commonPrefixLen : List Char → List Char → Nat
  | a :: as, b :: bs => if a == b then commonPrefixLen as bs + 1 else 0
  | _, _ => 0

/-- `find_longest_match` over the whole of `a` and `b`: the `(i, j, size)`
with maximal size, earliest `i`, then earliest `j`. -/
def longestMatch (a b : List Char) : Nat × Nat × Nat :=
  let cands := (List.range a.length).flatMap (fun i =>
    (List.range b.length).map (fun j =>
      (i, j, commonPrefixLen (a.drop i) (b.drop j))))
  cands.foldl (fun best c => if best.2.2 < c.2.2 then c else best) (0, 0, 0)

/-- Total size of all matching blocks (`get_matching_blocks` recursion),
with explicit fuel; each recursive call strictly shrinks the inputs. -/
def matchTotalF : Nat → List Char → List Char → Nat
  | 0, _, _ => 0
  | fuel + 1, a, b =>
    let lm := longestMatch a b
    if lm.2.2 = 0 then 0
    else
      matchTotalF fuel (a.take lm.1) (b.take lm.2.1) + lm.2.2 +
        matchTotalF fuel (a.drop (lm.1 + lm.2.2)) (b.drop (lm.2.1 + lm.2.2))

/-- Total matched characters between `a` and `b`. -/
def matchTotal (a b : List Char) : Nat :=
  matchTotalF (a.length + b.length + 1) a b

/-- `SequenceMatcher(None, a, b).ratio() = 2*M/T` (and `1.0` when both
strings are empty). -/
def smRatioOf (a b : List Char) : ℚ :=
  if a.length + b.length = 0 then mkRat 1 1
  else mkRat (2 * matchTotal a b) (a.length + b.length)

/-- Python `str.lower()` (ASCII case folding suffices for these inputs). -/
def pyLower (s : List Char) : List Char := s.map Char.toLower

/-- `IPOSearchEngine.calculate_similarity`: the ratio of the lower-cased
strings. -/
def calculateSimilarity (s1 s2 : List Char) : ℚ :=
  smRatioOf (pyLower s1) (pyLower s2)

/-! ## The search engine -/

/-- A company record of the index (§3 of the spec). -/
structure Company where
  name : List Char
  slug : List Char
  id : List Char
  url : List Char
  category : List Char
deriving Repr, DecidableEq

/-- A company decorated with its `match_score` (the `company.copy()` with
the added key, in `search`'s result list). -/
structure ScoredCompany where
  company : Company
  match_score : ℚ
deriving Repr, DecidableEq

/-- The score `search` computes for one company: the similarity, raised to
at least `0.6` when the lower-cased query is a substring of the lower-cased
name. -/
def searchScore (query name : List Char) : ℚ :=
  let score := calculateSimilarity query name
  if hasSubstr (pyLower query) (pyLower name) then max score (mkRat 6 10)
  else score

/-- Stable insertion of `x` into a list sorted by `key` descending: `x` goes
before the first element whose key is `≤ key x`, hence after every
earlier-inserted element of equal key. -/
def insertDesc (key : α → ℚ) (x : α) : List α → List α
  | [] => [x]
  | y :: ys => if key y ≤ key x then x :: y :: ys else y :: insertDesc key x ys

/-- Stable descending sort by `key` (the unique output of any stable sort,
hence of Python's `list.sort(key=..., reverse=True)`). -/
def sortDesc (key : α → ℚ) (l : List α) : List α :=
  l.foldr (insertDesc key) []

/-- The `results` list built by `search`'s loop: each company whose score
reaches `min_score`, scored, in collection order. -/
def scoredFiltered (companies : List Company) (query : List Char)
    (minScore : ℚ) : List ScoredCompany :=
  companies.filterMap (fun c =>
    let score := searchScore query c.name
    if minScore ≤ score then some ⟨c, score⟩ else none)

/-- `IPOSearchEngine.search`: empty query or empty collection short-circuit
to `[]`; otherwise filter by score, sort stably by score descending, then
truncate to `limit`. -/
def search (companies : List Company) (query : List Char) (limit : Nat)
    (minScore : ℚ) : List ScoredCompany :=
  if query.isEmpty || companies.isEmpty then []
  else (sortDesc (fun sc => sc.match_score)
          (scoredFiltered companies query minScore)).take limit

/-- Modelled from the spec's words (§4.5): the companies whose computed
score is at least `min_score`, sorted by score descending with equal scores
in collection order, truncated to `limit` after sorting.  Stated without
`search`'s short-circuit guard, as the claim quantifies over every query. -/
def searchSpec (companies : List Company) (query : List Char) (limit : Nat)
    (minScore : ℚ) : List ScoredCompany :=
  (sortDesc (fun sc => sc.match_score)
    (((companies.map (fun c => ScoredCompany.mk c (searchScore query c.name))).filter
      (fun sc => minScore ≤ sc.match_score)))).take limit

/-! ## The field extractors -/

/-- Python exceptions the embedded code can raise. -/
inductive PyErr where
  | valueError
deriving Repr, DecidableEq

/-- Decimal digits to a number. -/
def digitsToNat (l : List Char) : Nat :=
  l.foldl (fun acc c => acc * 10 + (c.toNat - '0'.toNat)) 0

/-- Python `float(s)` on the digit/comma-free strings produced by the
source's numeric regex groups: digits with at most one dot and at least one
digit succeed; everything else (in particular `""` and `"."`) raises. -/
def pyFloat (s : List Char) : Option ℚ :=
  let ip := s.takeWhile (fun c => !(c == '.'))
  let rest := s.drop ip.length
  if ip.all Char.isDigit then
    match rest with
    | [] => if ip.isEmpty then none else some (mkRat (digitsToNat ip) 1)
    | '.' :: fp =>
        if fp.all Char.isDigit && !(ip.isEmpty && fp.isEmpty) then
          some (mkRat (digitsToNat ip * 10 ^ fp.length + digitsToNat fp)
                  (10 ^ fp.length))
        else none
    | _ => none
  else none

/-- Result dictionary of `_extract_currency_value` when a match path is
taken; a `none` field models an absent key. -/
structure CurrencyVal where
  value : Option ℚ
  unit : Option (List Char)
  currency : Option (List Char)
  raw : List Char
deriving Repr, DecidableEq

/-- `IPODataExtractor._extract_currency_value`: `None` for empty input;
on a pattern match, the float of the comma-stripped group (guarded against
an empty group, but `float` itself can still raise), the dot-stripped unit
and the hard-coded currency marker; otherwise only the cleaned raw text. -/
def extractCurrencyValue (text : List Char) : Except PyErr (Option CurrencyVal) :=
  if text.isEmpty then .ok none
  else
    match reSearch currencyRx text with
    | some caps =>
        let value := ((capGet caps 1).getD []).filter (fun c => !(c == ','))
        let unitClean := ((capGet caps 2).getD []).filter (fun c => !(c == '.'))
        if value.isEmpty then
          .ok (some ⟨none, some unitClean, some curMark, cleanText text⟩)
        else
          match pyFloat value with
          | some q => .ok (some ⟨some q, some unitClean, some curMark, cleanText text⟩)
          | none => .error .valueError
    | none => .ok (some ⟨none, none, none, cleanText text⟩)

/-- One iteration of `_extract_dates`'s loop: try the labelled pattern,
clean its group 1, and insert the value only if it passes the
calendar-date shape check. -/
def dateStep (doc : List Char) (fld : String × Rx)
    (acc : List (String × List Char)) : List (String × List Char) :=
  match reSearch fld.2 doc with
  | some caps =>
      let v := cleanText ((capGet caps 1).getD [])
      if hasDateShape v then (fld.1, v) :: acc else acc
  | none => acc

/-- `IPODataExtractor._extract_dates` over the serialized markup. -/
def extractDates (doc : List Char) : List (String × List Char) :=
  dateFields.foldr (dateStep doc) []

/-- The `pricing` group of an `IPORecord`; a `none` field is an absent key. -/
structure Pricing where
  ipo_size_cr : Option ℚ
  issue_price_rs : Option ℚ
  price_band_upper_rs : Option ℚ
  face_value_rs : Option ℚ
  lot_size : Option Nat
deriving Repr, DecidableEq

/-- The first pattern of an ordered fallback chain that matches (the chain
loop with `break` in `_extract_pricing`). -/
def firstCapsOf (ps : List Rx) (doc : List Char) : Option Caps :=
  ps.findSome? (fun p => reSearch p doc)

/-- A numeric pricing field from a fallback chain:
`float(match.group(1).replace(',', ''))` with no emptiness guard, so the
conversion can raise. -/
def chainNumField (ps : List Rx) (doc : List Char) : Except PyErr (Option ℚ) :=
  match firstCapsOf ps doc with
  | some caps =>
      match pyFloat (((capGet caps 1).getD []).filter (fun c => !(c == ','))) with
      | some q => .ok (some q)
      | none => .error .valueError
  | none => .ok none

/-- `IPODataExtractor._extract_pricing` over the serialized markup.
`int()` on a `(\d+)` group cannot raise, so the lot size is plain. -/
def extractPricing (doc : List Char) : Except PyErr Pricing := do
  let sz ← chainNumField sizePatterns doc
  let pr ← chainNumField pricePatterns doc
  let band ← chainNumField [bandP] doc
  let face ← chainNumField [faceP] doc
  let lot := (reSearch lotP doc).map (fun caps =>
    digitsToNat ((capGet caps 1).getD []))
  return ⟨sz, pr, band, face, lot⟩

/-! ## Python dictionaries and the subscription table -/

/-- One `d[key] = x` update of a Python dict rendered as an ordered
association list: an existing key keeps its position and gets the new
value, a new key is appended. -/
def pyUpsert (keyOf : α → β) [BEq β] (l : List α) (x : α) : List α :=
  if l.any (fun y => keyOf y == keyOf x) then
    l.map (fun y => if keyOf y == keyOf x then x else y)
  else l ++ [x]

/-- A Python dict built by inserting the elements in order (first-insertion
position, last-written value). -/
def pyDict (keyOf : α → β) [BEq β] (l : List α) : List α :=
  l.foldl (pyUpsert keyOf) []

/-- A markup table as seen by `_parse_subscription_table`: optional header
row with cell texts, optional body with rows of cell texts. -/
structure HtmlTable where
  thead : Option (List (List Char))
  tbody : Option (List (List (List Char)))
deriving Repr, DecidableEq

/-- `IPODataExtractor._parse_subscription_table`: header labels from the
header row, then one `dict(zip(headers, cells))` per body row, skipping a
row when it has no cells or there are no headers. -/
def parseSubscriptionTable (t : HtmlTable) : List (List (List Char × List Char)) :=
  let headers := (t.thead.getD []).map cleanText
  match t.tbody with
  | none => []
  | some trs =>
      trs.foldr (fun tr acc =>
        let cells := tr.map cleanText
        if !cells.isEmpty && !headers.isEmpty then
          pyDict Prod.fst (headers.zip cells) :: acc
        else acc) []

/-- The deduplication step of `IPOIndexBuilder.build_index`:
`unique_companies[company['id']] = company` over the discovered sequence,
then the dict's values in order. -/
def buildIndexDedup (allCompanies : List Company) : List Company :=
  pyDict Company.id allCompanies

/-! ## A heap model of `search`, for the frame claim

Python dicts are mutable objects; to state that `search` does not mutate
the stored collection we model the object store explicitly: a heap of
company objects addressed by index, the index holding addresses, and
`search` allocating a fresh copy (with `match_score` set) per result. -/

/-- A company dict object: the stored fields plus the optional
`match_score` key. -/
structure CompanyObj where
  base : Company
  match_score : Option ℚ
deriving Repr, DecidableEq

/-- The object store. -/
abbrev Heap := List CompanyObj

/-- Dereference an address (addresses used are always in range). -/
def heapGet (h : Heap) (a : Nat) : CompanyObj :=
  h.getD a ⟨⟨[], [], [], [], []⟩, none⟩

/-- The result-building loop of `search` on the heap: for each stored
company whose score qualifies, allocate `company.copy()` with
`match_score` added and collect the fresh address. -/
def searchLoop (q : List Char) (ms : ℚ) (h : Heap) :
    List Nat → Heap × List Nat
  | [] => (h, [])
  | a :: as =>
      let obj := heapGet h a
      let sc := searchScore q obj.base.name
      if ms ≤ sc then
        let step := searchLoop q ms (h ++ [⟨obj.base, some sc⟩]) as
        (step.1, h.length :: step.2)
      else searchLoop q ms h as

/-- `IPOSearchEngine.search` on the heap model: build the copies, then sort
the result addresses by their objects' scores and truncate. -/
def searchH (h : Heap) (addrs : List Nat) (q : List Char) (lim : Nat)
    (ms : ℚ) : Heap × List Nat :=
  if q.isEmpty || addrs.isEmpty then (h, [])
  else
    let step := searchLoop q ms h addrs
    (step.1, (sortDesc (fun a => ((heapGet step.1 a).match_score).getD (mkRat 0 1))
                step.2).take lim)

/-- The `ScoredCompany` a caller reads back from a result address. -/
def resolveAt (h : Heap) (a : Nat) : ScoredCompany :=
  ⟨(heapGet h a).base, ((heapGet h a).match_score).getD (mkRat 0 1)⟩

/-! ## Concrete inputs used by the claims -/

/-- A company with only a display name, as in the spec's search example. -/
def mkCompany (n : String) : Company := ⟨n.data, [], [], [], []⟩

/-- First company of the spec's ranking example. -/
def sudeepCo : Company := mkCompany "Sudeep Pharma"

/-- Second company of the spec's ranking example. -/
def suyogCo : Company := mkCompany "Suyog Pharma"

/-- Serialized markup on which `_extract_pricing`'s first size pattern
matches with the numeric group `","`, so `float('')` raises. -/
def pricingBadDoc : List Char := "IPO size is <b>‚Çπ , Cr</b>".data

/-- Serialized markup on which both the first and the second size pattern
match, with different values. -/
def chainDoc : List Char :=
  "IPO size is <b>‚Çπ 100 Cr</b> ipo size of ‚Çπ 200 Cr".data

/-- Markup whose open-date label is present but whose labelled value is the
placeholder token. -/
def dateBadDoc : List Char := "IPO open date is <b>[‚óè]</b>".data

/-- Markup with a well-formed open date. -/
def dateGoodDoc : List Char := "IPO open date is <b>21st November 2025</b>".data

/-- A one-object store holding the demo company, for the frame witness. -/
def demoHeap : Heap := [⟨sudeepCo, none⟩]

/-- `true` iff the word has no two adjacent whitespace characters. -/
def noTwoWS : List Char → Bool
  | [] => true
  | c :: cs =>
      (match cs.head? with
       | some d => !(pySpace c && pySpace d)
       | none => true) && noTwoWS cs

/-! ## Properties of the stable descending sort -/

theorem insertDesc_perm (key : α → ℚ) (x : α) (l : List α) :
    (insertDesc key x l).Perm (x :: l) := by
  induction l with
  | nil => simp [insertDesc]
  | cons y ys ih =>
      by_cases h : key y ≤ key x
      · simp [insertDesc, h]
      · simp only [insertDesc, if_neg h]
        exact (ih.cons y).trans (List.Perm.swap x y ys)

theorem sortDesc_perm (key : α → ℚ) (l : List α) :
    (sortDesc key l).Perm l := by
  induction l with
  | nil => simp [sortDesc]
  | cons x xs ih => exact (insertDesc_perm key x (sortDesc key xs)).trans (ih.cons x)

theorem mem_insertDesc (key : α → ℚ) (x z : α) (l : List α) :
    z ∈ insertDesc key x l ↔ z = x ∨ z ∈ l := by
  rw [(insertDesc_perm key x l).mem_iff, List.mem_cons]

theorem pairwise_insertDesc (key : α → ℚ) (x : α) (l : List α)
    (h : List.Pairwise (fun a b => key b ≤ key a) l) :
    List.Pairwise (fun a b => key b ≤ key a) (insertDesc key x l) := by
  induction l with
  | nil => simp [insertDesc]
  | cons y ys ih =>
      rcases List.pairwise_cons.mp h with ⟨hy, hys⟩
      by_cases hle : key y ≤ key x
      · simp only [insertDesc, if_pos hle]
        refine List.pairwise_cons.mpr ⟨?_, h⟩
        intro z hz
        rcases List.mem_cons.mp hz with rfl | hz
        · exact hle
        · exact (hy z hz).trans hle
      · simp only [insertDesc, if_neg hle]
        refine List.pairwise_cons.mpr ⟨?_, ih hys⟩
        intro z hz
        rcases (mem_insertDesc key x z ys).mp hz with rfl | hz
        · exact le_of_lt (lt_of_not_le hle)
        · exact hy z hz

theorem pairwise_sortDesc (key : α → ℚ) (l : List α) :
    List.Pairwise (fun a b => key b ≤ key a) (sortDesc key l) := by
  induction l with
  | nil => simp [sortDesc]
  | cons x xs ih => exact pairwise_insertDesc key x (sortDesc key xs) ih

theorem filter_insertDesc (key : α → ℚ) (x : α) (l : List α) (v : ℚ) :
    (insertDesc key x l).filter (fun a => key a == v)
      = if key x == v then x :: l.filter (fun a => key a == v)
        else l.filter (fun a => key a == v) := by
  induction l with
  | nil => by_cases h : key x == v <;> simp [insertDesc, List.filter, h]
  | cons y ys ih =>
      by_cases hle : key y ≤ key x
      · by_cases hx : key x == v <;>
          simp [insertDesc, if_pos hle, List.filter_cons, hx]
      · have hlt : key x < key y := lt_of_not_le hle
        by_cases hx : key x == v
        · have hy : (key y == v) = false := by
            have : key y ≠ v := by
              intro hcon
              exact absurd (beq_iff_eq.mp hx ▸ hcon ▸ le_refl (key y))
                (not_le_of_lt hlt)
            simpa using this
          simp [insertDesc, if_neg hle, List.filter_cons, hy, ih, hx]
        · simp [insertDesc, if_neg hle, List.filter_cons, ih, hx]

theorem filter_sortDesc (key : α → ℚ) (l : List α) (v : ℚ) :
    (sortDesc key l).filter (fun a => key a == v)
      = l.filter (fun a => key a == v) := by
  induction l with
  | nil => simp [sortDesc]
  | cons x xs ih =>
      by_cases hx : key x == v <;>
        simp [sortDesc, filter_insertDesc, hx, List.filter_cons] <;>
        simpa [sortDesc] using ih

theorem map_insertDesc (key : β → ℚ) (f : α → β) (x : α) (l : List α) :
    (insertDesc (fun a => key (f a)) x l).map f
      = insertDesc key (f x) (l.map f) := by
  induction l with
  | nil => simp [insertDesc]
  | cons y ys ih =>
      by_cases h : key (f y) ≤ key (f x) <;>
        simp [insertDesc, h, ih]

theorem map_sortDesc (key : β → ℚ) (f : α → β) (l : List α) :
    (sortDesc (fun a => key (f a)) l).map f = sortDesc key (l.map f) := by
  induction l with
  | nil => simp [sortDesc]
  | cons x xs ih =>
      have hs : sortDesc (fun a => key (f a)) (x :: xs)
          = insertDesc (fun a => key (f a)) x (sortDesc (fun a => key (f a)) xs) := rfl
      rw [hs, map_insertDesc, ih]
      rfl

/-- The loop body of `search` builds exactly the score-qualifying companies,
in collection order, of the spec's map-then-filter description. -/
theorem scoredFiltered_eq_filter_map (l : List Company) (q : List Char) (ms : ℚ) :
    scoredFiltered l q ms
      = ((l.map (fun c => ScoredCompany.mk c (searchScore q c.name))).filter
          (fun sc => ms ≤ sc.match_score)) := by
  induction l with
  | nil => simp [scoredFiltered]
  | cons c cs ih =>
      by_cases h : ms ≤ searchScore q c.name <;>
        simp [scoredFiltered, List.filterMap_cons, h, List.filter_cons] <;>
        simpa [scoredFiltered] using ih

/-! ## Claim C1 -/

/-- C1 (amended to nonempty queries): for every collection, nonempty query,
limit and `min_score`, `search` returns exactly the companies scoring at
least `min_score`, stably sorted by score descending (equal scores keep
collection order, witnessed by the per-score filter equation), truncated to
`limit` only after sorting. -/
theorem search_eq_filter_stable_sort_take (l : List Company) (q : List Char)
    (lim : Nat) (ms : ℚ) (hq : q ≠ []) :
    search l q lim ms = searchSpec l q lim ms ∧
    search l q lim ms
      = (sortDesc (fun sc => sc.match_score) (scoredFiltered l q ms)).take lim ∧
    (sortDesc (fun sc => sc.match_score) (scoredFiltered l q ms)).Perm
      (scoredFiltered l q ms) ∧
    List.Pairwise (fun a b => b.match_score ≤ a.match_score)
      (search l q lim ms) ∧
    ∀ v : ℚ,
      (sortDesc (fun sc => sc.match_score) (scoredFiltered l q ms)).filter
          (fun sc => sc.match_score == v)
        = (scoredFiltered l q ms).filter (fun sc => sc.match_score == v) := by
  have hq' : q.isEmpty = false := by
    cases q with
    | nil => exact absurd rfl hq
    | cons c cs => rfl
  have htake : search l q lim ms
      = (sortDesc (fun sc => sc.match_score) (scoredFiltered l q ms)).take lim := by
    by_cases hl : l = []
    · subst hl; simp [search, scoredFiltered, sortDesc]
    · have hl' : l.isEmpty = false := by
        cases l with
        | nil => exact absurd rfl hl
        | cons c cs => rfl
      simp [search, hq', hl']
  refine ⟨?_, htake, sortDesc_perm _ _, ?_, fun v => filter_sortDesc _ _ v⟩
  · rw [htake, searchSpec, scoredFiltered_eq_filter_map]
  · rw [htake]
    exact (pairwise_sortDesc _ _).take

/-- Witness for C1 at a concrete collection and query. -/
theorem search_eq_filter_stable_sort_take_witness :
    search [sudeepCo] ("Sudeep".data) 10 (mkRat 3 10)
      = searchSpec [sudeepCo] ("Sudeep".data) 10 (mkRat 3 10) ∧
    search [sudeepCo] ("Sudeep".data) 10 (mkRat 3 10)
      = (sortDesc (fun sc => sc.match_score)
          (scoredFiltered [sudeepCo] ("Sudeep".data) (mkRat 3 10))).take 10 ∧
    (sortDesc (fun sc => sc.match_score)
        (scoredFiltered [sudeepCo] ("Sudeep".data) (mkRat 3 10))).Perm
      (scoredFiltered [sudeepCo] ("Sudeep".data) (mkRat 3 10)) ∧
    List.Pairwise (fun a b => b.match_score ≤ a.match_score)
      (search [sudeepCo] ("Sudeep".data) 10 (mkRat 3 10)) ∧
    ∀ v : ℚ,
      (sortDesc (fun sc => sc.match_score)
          (scoredFiltered [sudeepCo] ("Sudeep".data) (mkRat 3 10))).filter
          (fun sc => sc.match_score == v)
        = (scoredFiltered [sudeepCo] ("Sudeep".data) (mkRat 3 10)).filter
            (fun sc => sc.match_score == v) :=
  search_eq_filter_stable_sort_take [sudeepCo] ("Sudeep".data) 10 (mkRat 3 10)
    (by decide)

/-- C1 as frozen is false for the empty query: the code short-circuits to
`[]` although the company "A" scores `0.6 ≥ 0.3` under the spec's
filter-sort-truncate description. -/
theorem search_empty_query_cex :
    search [mkCompany "A"] [] 10 (mkRat 3 10)
      ≠ searchSpec [mkCompany "A"] [] 10 (mkRat 3 10) ∧
    search [mkCompany "A"] [] 10 (mkRat 3 10) = [] ∧
    searchSpec [mkCompany "A"] [] 10 (mkRat 3 10)
      = [⟨mkCompany "A", mkRat 6 10⟩] := by
  refine ⟨by decide, by decide, by decide⟩

/-! ## Claim C2 -/

/-- C2: a case-insensitive substring hit lifts the score to at least `0.6`,
and on the spec's example collection the query "Sudeep" ranks
"Sudeep Pharma" (score `12/19 ≥ 0.6`) above "Suyog Pharma". -/
theorem substring_score_floor :
    (∀ q n, hasSubstr (pyLower q) (pyLower n) = true →
      mkRat 6 10 ≤ searchScore q n) ∧
    search [sudeepCo, suyogCo] ("Sudeep".data) 10 (mkRat 3 10)
      = [⟨sudeepCo, mkRat 12 19⟩, ⟨suyogCo, mkRat 1 3⟩] ∧
    mkRat 6 10 ≤ mkRat 12 19 := by
  refine ⟨fun q n h => ?_, by decide, by decide⟩
  simp only [searchScore, h, if_true]
  exact le_max_right _ _

/-- Witness for C2's substring floor at the example query and name. -/
theorem substring_score_floor_witness :
    mkRat 6 10 ≤ searchScore ("Sudeep".data) ("Sudeep Pharma".data) :=
  substring_score_floor.1 ("Sudeep".data) ("Sudeep Pharma".data) (by decide)

/-! ## Claim C3 -/

/-- C3 fails on the code: on `pricingBadDoc` the first size pattern matches
with numeric group `","`, the comma-strip leaves `""`, and the unguarded
`float('')` conversion raises, so `extract_all` propagates a `ValueError`
instead of returning a record. -/
theorem extract_pricing_raises_on_comma_group :
    reSearch sizeP1 pricingBadDoc ≠ none ∧
    (firstCapsOf sizePatterns pricingBadDoc).map (fun caps => capGet caps 1)
      = some (some [',']) ∧
    extractPricing pricingBadDoc = .error .valueError := by
  refine ⟨by decide, by decide, by rfl⟩

/-! ## Claim C5 -/

/-- C5 (amended): empty input gives an absent result; a match whose
comma-stripped numeric group has a float conversion yields that value and
the dot-stripped unit; a non-empty input with no match keeps only the
normalized raw text, with value, unit and currency absent. -/
theorem currency_value_cases (text : List Char) :
    (text = [] → extractCurrencyValue text = .ok none) ∧
    (∀ caps g1 q, reSearch currencyRx text = some caps →
      capGet caps 1 = some g1 →
      pyFloat (g1.filter (fun c => !(c == ','))) = some q →
      extractCurrencyValue text
        = .ok (some ⟨some q,
            some (((capGet caps 2).getD []).filter (fun c => !(c == '.'))),
            some curMark, cleanText text⟩)) ∧
    (text ≠ [] → reSearch currencyRx text = none →
      extractCurrencyValue text = .ok (some ⟨none, none, none, cleanText text⟩)) := by
  refine ⟨?_, ?_, ?_⟩
  · intro h; subst h; rfl
  · intro caps g1 q hsr hg1 hq
    have htext : text.isEmpty = false := by
      cases text with
      | nil =>
          rw [show reSearch currencyRx [] = none from by decide] at hsr
          cases hsr
      | cons c cs => rfl
    have hne : (g1.filter (fun c => !(c == ','))).isEmpty = false := by
      cases hfe : g1.filter (fun c => !(c == ',')) with
      | nil =>
          rw [hfe, show pyFloat ([] : List Char) = none from by decide] at hq
          cases hq
      | cons d ds => rfl
    simp only [extractCurrencyValue, htext, Bool.false_eq_true, if_false,
      hsr, hg1, Option.getD_some, hne, hq]
  · intro hne hsr
    have htext : text.isEmpty = false := by
      cases text with
      | nil => exact absurd rfl hne
      | cons c cs => rfl
    simp [extractCurrencyValue, htext, hsr]

/-- Witness for C5 at `"1,234.5 Cr."` (value `1234.5`, unit `"Cr"`),
at `""` and at the matchless `"abc"`. -/
theorem currency_value_cases_witness :
    extractCurrencyValue [] = .ok none ∧
    extractCurrencyValue ("1,234.5 Cr.".data)
      = .ok (some ⟨some (mkRat 12345 10), some ("Cr".data), some curMark,
                   "1,234.5 Cr.".data⟩) ∧
    extractCurrencyValue ("abc".data)
      = .ok (some ⟨none, none, none, "abc".data⟩) :=
  ⟨(currency_value_cases []).1 rfl,
   by
    have h := (currency_value_cases ("1,234.5 Cr.".data)).2.1
      [(1, "1,234.5".data), (2, "Cr.".data)] ("1,234.5".data) (mkRat 12345 10)
      (by decide) (by decide) (by decide)
    simpa using h,
   (currency_value_cases ("abc".data)).2.2 (by decide) (by decide)⟩

/-- C5 as frozen is false: on input `","` the numeric-literal pattern
matches (group 1 is `","`), yet the stripped literal `""` has no float
conversion and the code stores an absent value rather than a float. -/
theorem currency_value_comma_cex :
    reSearch currencyRx [','] = some [(1, [','])] ∧
    pyFloat (([','].filter (fun c => !(c == ',')))) = none ∧
    extractCurrencyValue [','] = .ok (some ⟨none, some [], some curMark, [',']⟩) := by
  refine ⟨by decide, by decide, by rfl⟩

/-! ## Claim C6 -/

/-- Every entry the date fold produces has passed the calendar-shape check. -/
theorem mem_dateStep (doc : List Char) (fld : String × Rx)
    (acc : List (String × List Char)) (pr : String × List Char)
    (h : pr ∈ dateStep doc fld acc) :
    hasDateShape pr.2 = true ∨ pr ∈ acc := by
  unfold dateStep at h
  rcases hsr : reSearch fld.2 doc with _ | caps
  · rw [hsr] at h; exact Or.inr h
  · simp only [hsr] at h
    by_cases hshape : hasDateShape (cleanText ((capGet caps 1).getD [])) = true
    · rw [if_pos hshape] at h
      rcases List.mem_cons.mp h with rfl | h
      · exact Or.inl hshape
      · exact Or.inr h
    · rw [if_neg hshape] at h
      exact Or.inr h

theorem extractDates_entries_shape (doc : List Char) :
    ∀ pr ∈ extractDates doc, hasDateShape pr.2 = true := by
  unfold extractDates
  induction dateFields with
  | nil => intro pr h; cases h
  | cons fld flds ih =>
      intro pr h
      simp only [List.foldr_cons] at h
      rcases mem_dateStep doc fld _ pr h with hs | hmem
      · exact hs
      · exact ih pr hmem

theorem lookup_mem_pairs {β : Type} (l : List (String × β)) (k : String)
    (v : β) (h : l.lookup k = some v) : (k, v) ∈ l := by
  induction l with
  | nil => cases h
  | cons a as ih =>
      rcases a with ⟨k2, v2⟩
      rcases hk : k == k2 with _ | _
      · simp only [List.lookup_cons, hk] at h
        exact List.mem_cons_of_mem _ (ih h)
      · simp only [List.lookup_cons, hk] at h
        cases h
        have hkk : k = k2 := beq_iff_eq.mp hk
        subst hkk
        exact List.mem_cons_self _ _

/-- C6: a labelled date value enters the `dates` group only if it passes
the calendar-date shape check; on `dateBadDoc` the open-date label matches
but the placeholder value is discarded (no default substituted), while on
`dateGoodDoc` the well-formed date is kept. -/
theorem dates_require_calendar_shape :
    (∀ doc key v, (extractDates doc).lookup key = some v →
      hasDateShape v = true) ∧
    reSearch openDateRx dateBadDoc ≠ none ∧
    (extractDates dateBadDoc).lookup "ipo_open_date" = none ∧
    (extractDates dateGoodDoc).lookup "ipo_open_date"
      = some ("21st November 2025".data) := by
  refine ⟨?_, by decide, by decide, by decide⟩
  intro doc key v h
  exact extractDates_entries_shape doc (key, v) (lookup_mem_pairs _ key v h)

/-- Witness for C6 at the well-formed document. -/
theorem dates_require_calendar_shape_witness :
    hasDateShape ("21st November 2025".data) = true :=
  dates_require_calendar_shape.1 dateGoodDoc "ipo_open_date"
    ("21st November 2025".data) (by decide)

/-! ## Claim C7 -/

/-- The first structurally matching pattern of an ordered chain decides the
result: this is `findSome?` with every earlier candidate failing. -/
theorem firstCapsOf_earliest (ps : List Rx) (doc : List Char) :
    ∀ (i : Nat) (p : Rx) (caps : Caps),
      (∀ j, j < i → ∀ q, ps[j]? = some q → reSearch q doc = none) →
      ps[i]? = some p → reSearch p doc = some caps →
      firstCapsOf ps doc = some caps := by
  induction ps with
  | nil => intro i p caps _ hp _; simp at hp
  | cons r rs ih =>
      intro i p caps hearlier hp hm
      cases i with
      | zero =>
          rw [List.getElem?_cons_zero] at hp
          cases hp
          simp [firstCapsOf, List.findSome?_cons, hm]
      | succ i' =>
          have hr : reSearch r doc = none :=
            hearlier 0 (Nat.succ_pos i') r (List.getElem?_cons_zero)
          rw [List.getElem?_cons_succ] at hp
          have := ih i' p caps
            (fun j hj q hq =>
              hearlier (j + 1) (Nat.succ_lt_succ hj) q
                (by rw [List.getElem?_cons_succ]; exact hq))
            hp hm
          simp [firstCapsOf, List.findSome?_cons, hr]
          simpa [firstCapsOf] using this

/-- C7: a pricing fallback chain returns the value of the earliest pattern
that matches, never a later one; concretely, on `chainDoc` both size
patterns match (with values `100` and `200`) and the extracted size is the
first pattern's `100`. -/
theorem fallback_chain_first_match_wins :
    (∀ (ps : List Rx) (doc : List Char) (i : Nat) (p : Rx) (caps : Caps),
      (∀ j, j < i → ∀ q, ps[j]? = some q → reSearch q doc = none) →
      ps[i]? = some p → reSearch p doc = some caps →
      firstCapsOf ps doc = some caps) ∧
    (reSearch sizeP1 chainDoc).map (fun caps => capGet caps 1)
      = some (some ("100".data)) ∧
    (reSearch sizeP2 chainDoc).map (fun caps => capGet caps 1)
      = some (some ("200".data)) ∧
    extractPricing chainDoc
      = .ok ⟨some (mkRat 100 1), none, none, none, none⟩ := by
  refine ⟨fun ps doc => firstCapsOf_earliest ps doc, by decide, by decide, by rfl⟩

/-- Witness for C7's chain lemma: the first size pattern's match decides
the chain on `chainDoc`. -/
theorem fallback_chain_first_match_wins_witness :
    firstCapsOf sizePatterns chainDoc
      = some [(1, "100".data), (2, "Cr".data)] :=
  fallback_chain_first_match_wins.1 sizePatterns chainDoc 0 sizeP1
    [(1, "100".data), (2, "Cr".data)]
    (fun j hj q _ => absurd hj (Nat.not_lt_zero j))
    (by rfl) (by decide)

/-! ## Claim C8 -/

/-- Rows produced by the table fold all come from a body row with cells,
under nonempty headers, as the zip of headers and cells. -/
theorem mem_tableFold (headers : List (List Char))
    (trs : List (List (List Char))) (row : List (List Char × List Char))
    (h : row ∈ trs.foldr (fun tr acc =>
        if !(tr.map cleanText).isEmpty && !headers.isEmpty then
          pyDict Prod.fst (headers.zip (tr.map cleanText)) :: acc
        else acc) []) :
    ∃ tr ∈ trs, (tr.map cleanText) ≠ [] ∧ headers ≠ [] ∧
      row = pyDict Prod.fst (headers.zip (tr.map cleanText)) := by
  induction trs with
  | nil => cases h
  | cons tr trs' ih =>
      simp only [List.foldr_cons] at h
      by_cases hc : (!(tr.map cleanText).isEmpty && !headers.isEmpty) = true
      · rw [if_pos hc] at h
        rcases List.mem_cons.mp h with rfl | h
        · simp only [Bool.and_eq_true] at hc
          rcases hc with ⟨h1, h2⟩
          refine ⟨tr, List.mem_cons_self _ _, ?_, ?_, rfl⟩
          · intro hnil
            rw [hnil] at h1
            cases h1
          · intro hnil
            rw [hnil] at h2
            cases h2
        · rcases ih h with ⟨tr', htr', hrest⟩
          exact ⟨tr', List.mem_cons_of_mem _ htr', hrest⟩
      · rw [if_neg hc] at h
        rcases ih h with ⟨tr', htr', hrest⟩
        exact ⟨tr', List.mem_cons_of_mem _ htr', hrest⟩

/-- With no headers the table fold produces no rows at all. -/
theorem tableFold_no_headers (headers : List (List Char))
    (trs : List (List (List Char))) (hh : headers = []) :
    trs.foldr (fun tr acc =>
        if !(tr.map cleanText).isEmpty && !headers.isEmpty then
          pyDict Prod.fst (headers.zip (tr.map cleanText)) :: acc
        else acc) [] = [] := by
  subst hh
  induction trs with
  | nil => rfl
  | cons tr trs' ih =>
      simp only [List.foldr_cons, List.isEmpty_nil, Bool.not_true,
        Bool.and_false, Bool.false_eq_true, if_false] at ih ⊢
      exact ih

/-- C8: no header cells or no body yields no rows (the per-row guard, not
an empty-mapping fallback); when both exist every returned row is the
Python dict of the headers zipped against that row's cells in order. -/
theorem subscription_table_guard (t : HtmlTable) :
    ((t.thead.getD []).map cleanText = [] ∨ t.tbody = none →
      parseSubscriptionTable t = []) ∧
    (∀ row ∈ parseSubscriptionTable t,
      ∃ tr ∈ t.tbody.getD [],
        (tr.map cleanText) ≠ [] ∧ (t.thead.getD []).map cleanText ≠ [] ∧
        row = pyDict Prod.fst
          (((t.thead.getD []).map cleanText).zip (tr.map cleanText))) := by
  constructor
  · intro h
    rcases htb : t.tbody with _ | trs
    · simp only [parseSubscriptionTable, htb]
    · rcases h with hh | hnone
      · simp only [parseSubscriptionTable, htb]
        exact tableFold_no_headers _ trs hh
      · rw [htb] at hnone
        cases hnone
  · intro row h
    rcases htb : t.tbody with _ | trs
    · simp only [parseSubscriptionTable, htb] at h
      cases h
    · simp only [parseSubscriptionTable, htb] at h
      simp only [Option.getD_some]
      exact mem_tableFold _ trs row h

/-- Witness for C8: a headerless table with a body parses to no rows, and
a complete table parses to the zipped rows. -/
theorem subscription_table_guard_witness :
    parseSubscriptionTable ⟨none, some [["1".data, "2".data]]⟩ = [] ∧
    parseSubscriptionTable
        ⟨some ["H1".data, "H2".data], some [["a".data, "b".data]]⟩
      = [[("H1".data, "a".data), ("H2".data, "b".data)]] :=
  ⟨(subscription_table_guard ⟨none, some [["1".data, "2".data]]⟩).1
      (Or.inl (by decide)),
   by decide⟩

/-! ## Claim C9 -/

/-- Filtering commutes with a map that leaves the predicate and the kept
elements unchanged. -/
theorem filter_map_of_fix (p : Company → Bool) (f : Company → Company)
    (A : List Company)
    (hf : ∀ a ∈ A, p (f a) = p a ∧ (p a = true → f a = a)) :
    (A.map f).filter p = A.filter p := by
  induction A with
  | nil => rfl
  | cons a A' ih =>
      have ha := hf a (List.mem_cons_self _ _)
      have ih' := ih (fun b hb => hf b (List.mem_cons_of_mem _ hb))
      by_cases hp : p a = true
      · simp only [List.map_cons, List.filter_cons, ha.1, hp, if_pos,
          ha.2 hp, ih']
      · have hp' : p a = false := Bool.eq_false_iff.mpr hp
        simp only [List.map_cons, List.filter_cons, ha.1, hp', ih']
        simp

/-- One dict insertion, restricted to a key value `i`: inserting `c` makes
`c` the unique entry for its own id and leaves other ids' entries alone. -/
theorem upsert_filter_key (acc : List Company) (c : Company) (i : List Char)
    (hlen : (acc.filter (fun x => x.id == i)).length ≤ 1) :
    (pyUpsert Company.id acc c).filter (fun x => x.id == i)
      = if c.id == i then [c] else acc.filter (fun x => x.id == i) := by
  by_cases hex : (acc.any (fun y => y.id == c.id)) = true
  · rcases List.any_eq_true.mp hex with ⟨y, hy, hyc⟩
    simp only [pyUpsert, hex, if_pos]
    rw [List.filter_map]
    by_cases hci : (c.id == i) = true
    · have hci' : c.id = i := beq_iff_eq.mp hci
      have hcongr : acc.filter
            ((fun x => x.id == i) ∘ fun z => if z.id == c.id then c else z)
          = acc.filter (fun x => x.id == i) := by
        refine List.filter_congr (fun z _ => ?_)
        by_cases hz : (z.id == c.id) = true
        · have hz' : z.id = c.id := beq_iff_eq.mp hz
          simp [Function.comp, hz, hz']
        · simp [Function.comp, hz]
      rw [hcongr]
      have hne : acc.filter (fun x => x.id == i) ≠ [] := by
        intro hnil
        have hmem : y ∈ acc.filter (fun x => x.id == i) :=
          List.mem_filter.mpr ⟨hy, by
            rw [beq_iff_eq.mp hyc, hci']; exact beq_self_eq_true i⟩
        rw [hnil] at hmem
        cases hmem
      rcases hfe : acc.filter (fun x => x.id == i) with _ | ⟨a, rest⟩
      · exact absurd hfe hne
      · rcases rest with _ | ⟨b, rest2⟩
        · have ha : a ∈ acc.filter (fun x => x.id == i) := by
            rw [hfe]; exact List.mem_cons_self _ _
          have hac : (a.id == c.id) = true := by
            rw [beq_iff_eq.mp (List.mem_filter.mp ha).2, ← hci']
            exact beq_self_eq_true c.id
          rw [hfe, if_pos hci]
          simp only [List.map_cons, List.map_nil, if_pos hac]
        · rw [hfe] at hlen
          simp at hlen
    · have hci' : c.id ≠ i := by
        intro hcon
        exact hci (by rw [hcon]; exact beq_self_eq_true i)
      have hcongr : acc.filter
            ((fun x => x.id == i) ∘ fun z => if z.id == c.id then c else z)
          = acc.filter (fun x => x.id == i) := by
        refine List.filter_congr (fun z _ => ?_)
        by_cases hz : (z.id == c.id) = true
        · have hz' : z.id = c.id := beq_iff_eq.mp hz
          simp only [Function.comp, if_pos hz]
          have h1 : (c.id == i) = false := Bool.eq_false_iff.mpr hci
          have h2 : (z.id == i) = false := by
            rw [hz']
            exact h1
          rw [h1, h2]
        · simp [Function.comp, hz]
      rw [hcongr]
      have hmap : (acc.filter (fun x => x.id == i)).map
            (fun z => if z.id == c.id then c else z)
          = (acc.filter (fun x => x.id == i)).map id := by
        refine List.map_eq_map_iff.mpr (fun z hz => ?_)
        have hzi : z.id = i := beq_iff_eq.mp (List.mem_filter.mp hz).2
        have hzc : (z.id == c.id) = false := by
          refine Bool.eq_false_iff.mpr (fun hcon => ?_)
          exact hci' (by rw [← beq_iff_eq.mp hcon, hzi])
        rw [hzc]
        rfl
      rw [hmap, List.map_id, if_neg (by rw [Bool.eq_false_iff.mpr hci]; exact Bool.false_ne_true)]
  · simp only [pyUpsert, hex, Bool.false_eq_true, if_false]
    have hall : ∀ y ∈ acc, ¬(y.id == c.id) = true := by
      intro y hy hyc
      exact hex (List.any_eq_true.mpr ⟨y, hy, hyc⟩)
    rw [List.filter_append]
    by_cases hci : (c.id == i) = true
    · have hci' : c.id = i := beq_iff_eq.mp hci
      have hnil : acc.filter (fun x => x.id == i) = [] := by
        refine List.filter_eq_nil_iff.mpr (fun y hy hyi => ?_)
        exact hall y hy
          (by rw [beq_iff_eq.mp hyi, ← hci']; exact beq_self_eq_true c.id)
      rw [hnil]
      simp [List.filter_cons, hci]
    · simp [List.filter_cons, hci]

/-- Folding dict insertions keeps, for each id value, exactly the last
inserted entry. -/
theorem foldl_upsert_filter (i : List Char) (l : List Company) :
    ∀ acc : List Company,
      (acc.filter (fun x => x.id == i)).length ≤ 1 →
      (List.foldl (pyUpsert Company.id) acc l).filter (fun x => x.id == i)
        = ((acc.filter (fun x => x.id == i)
            ++ l.filter (fun x => x.id == i)).getLast?).toList := by
  induction l with
  | nil =>
      intro acc hlen
      rw [List.foldl_nil, List.filter_nil, List.append_nil]
      rcases hfe : acc.filter (fun x => x.id == i) with _ | ⟨a, rest⟩
      · rw [hfe]; rfl
      · rcases rest with _ | ⟨b, rest2⟩
        · rw [hfe]; rfl
        · rw [hfe] at hlen; simp at hlen
  | cons c l' ih =>
      intro acc hlen
      rw [List.foldl_cons]
      have hstep := upsert_filter_key acc c i hlen
      by_cases hci : (c.id == i) = true
      · rw [if_pos hci] at hstep
        have hlen2 : ((pyUpsert Company.id acc c).filter
            (fun x => x.id == i)).length ≤ 1 := by
          rw [hstep]; exact Nat.le_refl 1
        rw [ih _ hlen2, hstep, List.filter_cons, if_pos hci]
        rw [show ([c] ++ l'.filter (fun x => x.id == i))
              = c :: l'.filter (fun x => x.id == i) from rfl]
        rw [List.getLast?_append_cons]
      · have hci' : (c.id == i) = false := Bool.eq_false_iff.mpr hci
        rw [if_neg (by rw [hci']; exact Bool.false_ne_true)] at hstep
        have hlen2 : ((pyUpsert Company.id acc c).filter
            (fun x => x.id == i)).length ≤ 1 := by
          rw [hstep]; exact hlen
        rw [ih _ hlen2, hstep, List.filter_cons, hci']
        simp only [Bool.false_eq_true, if_false]

/-- The fold of dict insertions keeps the ids pairwise distinct. -/
theorem foldl_upsert_pairwise (l : List Company) :
    ∀ acc : List Company,
      List.Pairwise (fun a b => a.id ≠ b.id) acc →
      List.Pairwise (fun a b => a.id ≠ b.id)
        (List.foldl (pyUpsert Company.id) acc l) := by
  induction l with
  | nil => intro acc h; exact h
  | cons c l' ih =>
      intro acc h
      rw [List.foldl_cons]
      refine ih _ ?_
      by_cases hex : (acc.any (fun y => y.id == c.id)) = true
      · simp only [pyUpsert, hex, if_pos]
        refine List.pairwise_map.mpr ?_
        refine h.imp_of_mem (fun {a b} _ _ hab => ?_)
        by_cases ha : (a.id == c.id) = true <;>
          by_cases hb : (b.id == c.id) = true
        · exact absurd (beq_iff_eq.mp ha ▸ beq_iff_eq.mp hb ▸ rfl) hab
        · simp only [if_pos ha, if_neg hb]
          intro hcon
          exact hb (by rw [← hcon, ← beq_iff_eq.mp ha]; exact beq_self_eq_true a.id)
        · simp only [if_neg ha, if_pos hb]
          intro hcon
          exact ha (by rw [hcon, ← beq_iff_eq.mp hb]; exact beq_self_eq_true b.id)
        · simp only [if_neg ha, if_neg hb]
          exact hab
      · simp only [pyUpsert, hex, Bool.false_eq_true, if_false]
        refine List.pairwise_append.mpr ⟨h, List.pairwise_singleton _ _, ?_⟩
        intro a ha b hb
        rcases List.mem_singleton.mp hb with rfl
        intro hcon
        exact hex (List.any_eq_true.mpr ⟨a, ha, by rw [hcon]; exact beq_self_eq_true b.id⟩)

/-- C9: collection-build keeps exactly one entry per distinct id — for any
id value, the entries carrying it in the built collection are precisely
the last discovered company with that id — and the built collection's ids
are pairwise distinct. -/
theorem build_index_last_write_wins (l : List Company) (i : List Char) :
    (buildIndexDedup l).filter (fun c => c.id == i)
      = ((l.filter (fun c => c.id == i)).getLast?).toList ∧
    List.Pairwise (fun a b => a.id ≠ b.id) (buildIndexDedup l) := by
  constructor
  · have h := foldl_upsert_filter i l [] (by simp)
    simpa [buildIndexDedup, pyDict] using h
  · exact foldl_upsert_pairwise l [] List.Pairwise.nil

/-! ## Claim C10 -/

theorem heapGet_append_lt (h ext : Heap) (a : Nat) (ha : a < h.length) :
    heapGet (h ++ ext) a = heapGet h a := by
  unfold heapGet
  rw [List.getD_eq_getElem?_getD, List.getD_eq_getElem?_getD,
    List.getElem?_append_left ha]

theorem heapGet_append_cons (h : Heap) (x : CompanyObj) (ext : Heap) :
    heapGet (h ++ x :: ext) h.length = x := by
  unfold heapGet
  rw [List.getD_eq_getElem?_getD,
    List.getElem?_append_right (Nat.le_refl h.length)]
  simp

/-- The result-building loop only appends fresh copies: the original heap
is a prefix, every returned address is fresh and in range, and the
addresses resolve to exactly the `results` list of the pure `search` loop
over the stored companies. -/
theorem searchLoop_spec (q : List Char) (ms : ℚ) :
    ∀ (as : List Nat) (h : Heap), (∀ a ∈ as, a < h.length) →
      (∃ ext, (searchLoop q ms h as).1 = h ++ ext) ∧
      (∀ a ∈ (searchLoop q ms h as).2,
        h.length ≤ a ∧ a < (searchLoop q ms h as).1.length) ∧
      ((searchLoop q ms h as).2.map (resolveAt (searchLoop q ms h as).1)
        = scoredFiltered (as.map (fun a => (heapGet h a).base)) q ms) := by
  intro as
  induction as with
  | nil =>
      intro h _
      refine ⟨⟨[], (h.append_nil).symm⟩, ?_, rfl⟩
      intro a ha
      cases ha
  | cons a as' ih =>
      intro h hv
      have hva : a < h.length := hv a (List.mem_cons_self _ _)
      by_cases hsc : ms ≤ searchScore q (heapGet h a).base.name
      · have hloop : searchLoop q ms h (a :: as')
            = ((searchLoop q ms
                (h ++ [⟨(heapGet h a).base,
                       some (searchScore q (heapGet h a).base.name)⟩]) as').1,
               h.length :: (searchLoop q ms
                (h ++ [⟨(heapGet h a).base,
                       some (searchScore q (heapGet h a).base.name)⟩]) as').2) := by
          simp only [searchLoop, if_pos hsc]
        set x : CompanyObj :=
          ⟨(heapGet h a).base, some (searchScore q (heapGet h a).base.name)⟩ with hx
        have hv2 : ∀ b ∈ as', b < (h ++ [x]).length := by
          intro b hb
          have := hv b (List.mem_cons_of_mem _ hb)
          rw [List.length_append]
          exact Nat.lt_of_lt_of_le this (Nat.le_add_right _ _)
        rcases ih (h ++ [x]) hv2 with ⟨⟨ext, hext⟩, hfresh, hres⟩
        rw [hloop]
        refine ⟨⟨[x] ++ ext, ?_⟩, ?_, ?_⟩
        · rw [hext, List.append_assoc]
        · intro b hb
          rcases List.mem_cons.mp hb with rfl | hb
          · constructor
            · exact Nat.le_refl _
            · rw [hext, List.append_assoc, List.length_append]
              have : 0 < ([x] ++ ext).length := by simp
              exact Nat.lt_of_lt_of_le (Nat.lt_add_of_pos_right this)
                (Nat.le_refl _)
          · rcases hfresh b hb with ⟨h1, h2⟩
            refine ⟨?_, h2⟩
            rw [List.length_append] at h1
            exact Nat.le_trans (Nat.le_add_right _ _) h1
        · rw [List.map_cons]
          have hgete : heapGet (searchLoop q ms (h ++ [x]) as').1 h.length = x := by
            rw [hext, List.append_assoc]
            exact heapGet_append_cons h x ext
          have hhead : resolveAt (searchLoop q ms (h ++ [x]) as').1 h.length
              = ⟨(heapGet h a).base, searchScore q (heapGet h a).base.name⟩ := by
            unfold resolveAt
            rw [hgete, hx]
            rfl
          have hcomp : as'.map (fun b => (heapGet (h ++ [x]) b).base)
              = as'.map (fun b => (heapGet h b).base) := by
            refine List.map_eq_map_iff.mpr (fun b hb => ?_)
            rw [heapGet_append_lt h [x] b (hv b (List.mem_cons_of_mem _ hb))]
          rw [hhead, hres, hcomp, List.map_cons]
          unfold scoredFiltered
          rw [List.filterMap_cons]
          simp only [if_pos hsc]
      · have hloop : searchLoop q ms h (a :: as') = searchLoop q ms h as' := by
          simp only [searchLoop, if_neg hsc]
        have hv2 : ∀ b ∈ as', b < h.length :=
          fun b hb => hv b (List.mem_cons_of_mem _ hb)
        rcases ih h hv2 with ⟨hext, hfresh, hres⟩
        rw [hloop]
        refine ⟨hext, hfresh, ?_⟩
        rw [hres, List.map_cons]
        unfold scoredFiltered
        rw [List.filterMap_cons]
        simp only [if_neg hsc]

/-- Resolving the addresses a heap search returns yields exactly the pure
`search` over the stored companies. -/
theorem searchH_resolve (h : Heap) (addrs : List Nat) (q : List Char)
    (lim : Nat) (ms : ℚ) (hv : ∀ a ∈ addrs, a < h.length) :
    (searchH h addrs q lim ms).2.map (resolveAt (searchH h addrs q lim ms).1)
      = search (addrs.map (fun a => (heapGet h a).base)) q lim ms := by
  by_cases hg : (q.isEmpty || addrs.isEmpty) = true
  · have hg2 : (q.isEmpty || (addrs.map (fun a => (heapGet h a).base)).isEmpty)
        = true := by
      rcases (by simpa using hg : q.isEmpty = true ∨ addrs.isEmpty = true)
        with hq | ha
      · rw [hq, Bool.true_or]
      · have haddr : addrs = [] := List.isEmpty_iff.mp ha
        subst haddr
        simp
    simp only [searchH, hg, if_pos, search, hg2, List.map_nil]
  · have hg2 : (q.isEmpty || (addrs.map (fun a => (heapGet h a).base)).isEmpty)
        = false := by
      rcases (by simpa using hg : ¬q.isEmpty = true ∧ ¬addrs.isEmpty = true)
        with ⟨hq, ha⟩
      rw [Bool.eq_false_iff.mpr hq, Bool.false_or]
      cases addrs with
      | nil => exact absurd rfl ha
      | cons a as2 => rfl
    rcases searchLoop_spec q ms addrs h hv with ⟨⟨ext, hext⟩, hfresh, hres⟩
    simp only [searchH, hg, Bool.false_eq_true, if_false, search, hg2]
    have hkey : (fun a => ((heapGet (searchLoop q ms h addrs).1 a).match_score).getD
          (mkRat 0 1))
        = (fun a => (resolveAt (searchLoop q ms h addrs).1 a).match_score) := rfl
    rw [List.map_take, hkey,
      map_sortDesc ScoredCompany.match_score (resolveAt (searchLoop q ms h addrs).1)
        (searchLoop q ms h addrs).2,
      hres]

/-- C10: heap search never mutates stored objects (the old heap is a prefix
of the new one), returns only fresh copy addresses disjoint from the stored
ones, resolves to the pure `search` of the stored companies, and repeating
the identical search yields identical results. -/
theorem search_frame_and_copies (h : Heap) (addrs : List Nat) (q : List Char)
    (lim : Nat) (ms : ℚ) (hv : ∀ a ∈ addrs, a < h.length) :
    (searchH h addrs q lim ms).1.take h.length = h ∧
    (∀ a ∈ (searchH h addrs q lim ms).2, h.length ≤ a ∧ a ∉ addrs) ∧
    ((searchH h addrs q lim ms).2.map (resolveAt (searchH h addrs q lim ms).1)
      = search (addrs.map (fun a => (heapGet h a).base)) q lim ms) ∧
    ((searchH (searchH h addrs q lim ms).1 addrs q lim ms).2.map
        (resolveAt (searchH (searchH h addrs q lim ms).1 addrs q lim ms).1)
      = (searchH h addrs q lim ms).2.map
          (resolveAt (searchH h addrs q lim ms).1)) := by
  have hpre : ∃ ext, (searchH h addrs q lim ms).1 = h ++ ext := by
    by_cases hg : (q.isEmpty || addrs.isEmpty) = true
    · exact ⟨[], by simp only [searchH, hg, if_pos]; rw [List.append_nil]⟩
    · rcases searchLoop_spec q ms addrs h hv with ⟨⟨ext, hext⟩, hfr, hre⟩
      refine ⟨ext, ?_⟩
      simp only [searchH, hg, Bool.false_eq_true, if_false]
      exact hext
  rcases hpre with ⟨ext, hext⟩
  have hv2 : ∀ a ∈ addrs, a < (searchH h addrs q lim ms).1.length := by
    intro a ha
    rw [hext, List.length_append]
    exact Nat.lt_of_lt_of_le (hv a ha) (Nat.le_add_right _ _)
  have hsame : addrs.map (fun a => (heapGet (searchH h addrs q lim ms).1 a).base)
      = addrs.map (fun a => (heapGet h a).base) := by
    refine List.map_eq_map_iff.mpr (fun a ha => ?_)
    rw [hext, heapGet_append_lt h ext a (hv a ha)]
  refine ⟨?_, ?_, searchH_resolve h addrs q lim ms hv, ?_⟩
  · rw [hext, List.take_left]
  · intro a ha
    by_cases hg : (q.isEmpty || addrs.isEmpty) = true
    · simp only [searchH, hg, if_pos] at ha
      cases ha
    · rcases searchLoop_spec q ms addrs h hv with ⟨_, hfresh, _⟩
      simp only [searchH, hg, Bool.false_eq_true, if_false] at ha
      have hmem : a ∈ (searchLoop q ms h addrs).2 := by
        have h1 : a ∈ sortDesc
            (fun b => ((heapGet (searchLoop q ms h addrs).1 b).match_score).getD
              (mkRat 0 1)) (searchLoop q ms h addrs).2 :=
          List.take_subset _ _ ha
        exact (sortDesc_perm _ _).mem_iff.mp h1
      refine ⟨(hfresh a hmem).1, fun hcon => ?_⟩
      exact Nat.not_lt_of_le (hfresh a hmem).1 (hv a hcon)
  · rw [searchH_resolve _ addrs q lim ms hv2, hsame,
      searchH_resolve h addrs q lim ms hv]

/-- Witness for C10: on a one-company store the heap search leaves the
store's prefix intact and resolves to the pure search result. -/
theorem search_frame_and_copies_witness :
    (searchH demoHeap [0] ("Sudeep".data) 10 (mkRat 3 10)).1.take
        demoHeap.length = demoHeap ∧
    (searchH demoHeap [0] ("Sudeep".data) 10 (mkRat 3 10)).2.map
        (resolveAt (searchH demoHeap [0] ("Sudeep".data) 10 (mkRat 3 10)).1)
      = search ([0].map (fun a => (heapGet demoHeap a).base))
          ("Sudeep".data) 10 (mkRat 3 10) :=
  ⟨(search_frame_and_copies demoHeap [0] ("Sudeep".data) 10 (mkRat 3 10)
      (by decide)).1,
   (search_frame_and_copies demoHeap [0] ("Sudeep".data) 10 (mkRat 3 10)
      (by decide)).2.2.1⟩

/-! ## Claim C4 -/

theorem head_dropWhile_not (p : Char → Bool) (l : List Char) (c : Char)
    (h : (l.dropWhile p).head? = some c) : p c = false := by
  induction l with
  | nil => cases h
  | cons x xs ih =>
      rw [List.dropWhile_cons] at h
      by_cases hx : p x = true
      · rw [if_pos hx] at h; exact ih h
      · rw [if_neg hx] at h
        cases h
        exact Bool.eq_false_iff.mpr hx

theorem head_dropTrail (pr : Char → Bool) (l : List Char) (c : Char)
    (h : (dropTrail pr l).head? = some c) : l.head? = some c := by
  induction l with
  | nil => cases h
  | cons x xs ih =>
      have hstep : dropTrail pr (x :: xs)
          = if (dropTrail pr xs).isEmpty && pr x then []
            else x :: dropTrail pr xs := rfl
      rw [hstep] at h
      by_cases hc : ((dropTrail pr xs).isEmpty && pr x) = true
      · rw [if_pos hc] at h; cases h
      · rw [if_neg hc] at h
        cases h
        rfl

theorem getLast_dropTrail (pr : Char → Bool) (l : List Char) (c : Char)
    (h : (dropTrail pr l).getLast? = some c) : pr c = false := by
  induction l with
  | nil => cases h
  | cons x xs ih =>
      have hstep : dropTrail pr (x :: xs)
          = if (dropTrail pr xs).isEmpty && pr x then []
            else x :: dropTrail pr xs := rfl
      rw [hstep] at h
      by_cases hc : ((dropTrail pr xs).isEmpty && pr x) = true
      · rw [if_pos hc] at h; cases h
      · rw [if_neg hc] at h
        rcases hdt : dropTrail pr xs with _ | ⟨d, ds⟩
        · rw [hdt] at h
          have hcx : c = x := by
            have : some x = some c := by simpa using h
            cases this
            rfl
          subst hcx
          refine Bool.eq_false_iff.mpr (fun hpx => ?_)
          exact hc (by rw [hdt]; simp [hpx])
        · rw [hdt, List.getLast?_cons_cons] at h
          exact ih (by rw [hdt]; exact h)

theorem noTwoWS_tail (c : Char) (cs : List Char)
    (h : noTwoWS (c :: cs) = true) : noTwoWS cs = true := by
  have : ((match cs.head? with
           | some d => !(pySpace c && pySpace d)
           | none => true) && noTwoWS cs) = true := h
  exact (Bool.and_eq_true_iff.mp this).2

theorem head_collapseGo_true (l : List Char) (c : Char)
    (h : (collapseGo true l).head? = some c) : pySpace c = false := by
  induction l with
  | nil => cases h
  | cons x xs ih =>
      by_cases hx : pySpace x = true
      · have hstep : collapseGo true (x :: xs) = collapseGo true xs := by
          simp [collapseGo, hx]
        rw [hstep] at h
        exact ih h
      · have hstep : collapseGo true (x :: xs) = x :: collapseGo false xs := by
          simp [collapseGo, hx]
        rw [hstep] at h
        cases h
        exact Bool.eq_false_iff.mpr hx

theorem noTwoWS_collapseGo (l : List Char) :
    ∀ flag, noTwoWS (collapseGo flag l) = true := by
  induction l with
  | nil => intro flag; rfl
  | cons x xs ih =>
      intro flag
      by_cases hx : pySpace x = true
      · cases flag
        · have hstep : collapseGo false (x :: xs) = ' ' :: collapseGo true xs := by
            simp [collapseGo, hx]
          rw [hstep]
          have hhd : (match (collapseGo true xs).head? with
              | some d => !(pySpace ' ' && pySpace d)
              | none => true) = true := by
            rcases hh : (collapseGo true xs).head? with _ | d
            · rfl
            · have hd := head_collapseGo_true xs d hh
              simp [hd]
          show ((match (collapseGo true xs).head? with
              | some d => !(pySpace ' ' && pySpace d)
              | none => true) && noTwoWS (collapseGo true xs)) = true
          rw [hhd, ih true, Bool.and_self]
        · have hstep : collapseGo true (x :: xs) = collapseGo true xs := by
            simp [collapseGo, hx]
          rw [hstep]
          exact ih true
      · have hx' : pySpace x = false := Bool.eq_false_iff.mpr hx
        have hstep : collapseGo flag (x :: xs) = x :: collapseGo false xs := by
          cases flag <;> simp [collapseGo, hx]
        rw [hstep]
        show ((match (collapseGo false xs).head? with
            | some d => !(pySpace x && pySpace d)
            | none => true) && noTwoWS (collapseGo false xs)) = true
        have hhd : (match (collapseGo false xs).head? with
            | some d => !(pySpace x && pySpace d)
            | none => true) = true := by
          rcases hh : (collapseGo false xs).head? with _ | d
          · rfl
          · simp [hx']
        rw [hhd, ih false, Bool.and_self]

theorem noTwoWS_dropWhile (p : Char → Bool) (l : List Char)
    (h : noTwoWS l = true) : noTwoWS (l.dropWhile p) = true := by
  induction l with
  | nil => exact h
  | cons x xs ih =>
      rw [List.dropWhile_cons]
      by_cases hx : p x = true
      · rw [if_pos hx]
        exact ih (noTwoWS_tail x xs h)
      · rw [if_neg hx]
        exact h

theorem noTwoWS_dropTrail (pr : Char → Bool) (l : List Char)
    (h : noTwoWS l = true) : noTwoWS (dropTrail pr l) = true := by
  induction l with
  | nil => exact h
  | cons x xs ih =>
      have hstep : dropTrail pr (x :: xs)
          = if (dropTrail pr xs).isEmpty && pr x then []
            else x :: dropTrail pr xs := rfl
      rw [hstep]
      by_cases hc : ((dropTrail pr xs).isEmpty && pr x) = true
      · rw [if_pos hc]; rfl
      · rw [if_neg hc]
        show ((match (dropTrail pr xs).head? with
            | some d => !(pySpace x && pySpace d)
            | none => true) && noTwoWS (dropTrail pr xs)) = true
        have htl : noTwoWS (dropTrail pr xs) = true :=
          ih (noTwoWS_tail x xs h)
        have hhd : (match (dropTrail pr xs).head? with
            | some d => !(pySpace x && pySpace d)
            | none => true) = true := by
          rcases hh : (dropTrail pr xs).head? with _ | d
          · rfl
          · have hxd : xs.head? = some d := head_dropTrail pr xs d hh
            have hcc : ((match xs.head? with
                | some e => !(pySpace x && pySpace e)
                | none => true) && noTwoWS xs) = true := h
            rw [hxd] at hcc
            exact (Bool.and_eq_true_iff.mp hcc).1
        rw [hhd, htl, Bool.and_self]

theorem lstartsWith_self_append (p r : List Char) :
    lstartsWith p (p ++ r) = true := by
  induction p with
  | nil => rfl
  | cons a as ih => simp [lstartsWith, ih]

/-- With no occurrence of the placeholder, its removal is the identity. -/
theorem removeP_id (l : List Char)
    (h : hasSubstr placeholderTok l = false) : removeP l = l := by
  induction l using removeP.induct with
  | case1 rest =>
      exfalso
      have hstart : lstartsWith placeholderTok
          ('[' :: '‚' :: 'ó' :: 'è' :: ']' :: rest) = true :=
        lstartsWith_self_append placeholderTok rest
      have hsub : hasSubstr placeholderTok
          ('[' :: '‚' :: 'ó' :: 'è' :: ']' :: rest) = true := by
        rw [show hasSubstr placeholderTok ('[' :: '‚' :: 'ó' :: 'è' :: ']' :: rest)
            = (lstartsWith placeholderTok ('[' :: '‚' :: 'ó' :: 'è' :: ']' :: rest)
               || hasSubstr placeholderTok ('‚' :: 'ó' :: 'è' :: ']' :: rest))
          from rfl, hstart, Bool.true_or]
      rw [h] at hsub
      cases hsub
  | case2 c cs hne ih =>
      have htail : hasSubstr placeholderTok cs = false := by
        have hh : (lstartsWith placeholderTok (c :: cs)
            || hasSubstr placeholderTok cs) = false := h
        exact (Bool.or_eq_false_iff.mp hh).2
      rw [removeP, ih htail]
      exact hne
  | case3 => rfl

theorem lstartsWith_append_of (p m r : List Char)
    (h : lstartsWith p m = true) : lstartsWith p (m ++ r) = true := by
  induction p generalizing m with
  | nil => rfl
  | cons a as ih =>
      cases m with
      | nil => cases h
      | cons b bs =>
          have hh : ((a == b) && lstartsWith as bs) = true := h
          rcases Bool.and_eq_true_iff.mp hh with ⟨h1, h2⟩
          show ((a == b) && lstartsWith as (bs ++ r)) = true
          rw [h1, ih bs h2, Bool.and_self]

theorem hasSubstr_nil_pat (l : List Char) : hasSubstr [] l = true := by
  cases l with
  | nil => rfl
  | cons c cs => rfl

theorem hasSubstr_append_left (p m r : List Char)
    (h : hasSubstr p m = true) : hasSubstr p (m ++ r) = true := by
  induction m with
  | nil =>
      cases p with
      | nil => exact hasSubstr_nil_pat r
      | cons a as => cases h
  | cons x xs ih =>
      have hh : (lstartsWith p (x :: xs) || hasSubstr p xs) = true := h
      show (lstartsWith p (x :: xs ++ r) || hasSubstr p (xs ++ r)) = true
      rcases (by simpa using hh :
          lstartsWith p (x :: xs) = true ∨ hasSubstr p xs = true) with h1 | h2
      · rw [show x :: xs ++ r = (x :: xs) ++ r from rfl] at *
        rw [lstartsWith_append_of p (x :: xs) r h1, Bool.true_or]
      · rw [ih h2, Bool.or_true]

theorem hasSubstr_append_right (p a m : List Char)
    (h : hasSubstr p m = true) : hasSubstr p (a ++ m) = true := by
  induction a with
  | nil => exact h
  | cons x xs ih =>
      show (lstartsWith p (x :: (xs ++ m)) || hasSubstr p (xs ++ m)) = true
      rw [ih, Bool.or_true]

theorem hasSubstr_dropWhile (p : List Char) (pr : Char → Bool) (l : List Char)
    (h : hasSubstr p (l.dropWhile pr) = true) : hasSubstr p l = true := by
  have hsplit : l.takeWhile pr ++ l.dropWhile pr = l :=
    List.takeWhile_append_dropWhile pr l
  rw [← hsplit]
  exact hasSubstr_append_right p (l.takeWhile pr) (l.dropWhile pr) h

theorem dropTrail_append_ex (pr : Char → Bool) (l : List Char) :
    ∃ r, l = dropTrail pr l ++ r := by
  induction l with
  | nil => exact ⟨[], rfl⟩
  | cons x xs ih =>
      have hstep : dropTrail pr (x :: xs)
          = if (dropTrail pr xs).isEmpty && pr x then []
            else x :: dropTrail pr xs := rfl
      rw [hstep]
      by_cases hc : ((dropTrail pr xs).isEmpty && pr x) = true
      · rw [if_pos hc]
        exact ⟨x :: xs, rfl⟩
      · rw [if_neg hc]
        rcases ih with ⟨r, hr⟩
        exact ⟨r, by rw [List.cons_append, ← hr]⟩

theorem hasSubstr_dropTrail (p : List Char) (pr : Char → Bool) (l : List Char)
    (h : hasSubstr p (dropTrail pr l) = true) : hasSubstr p l = true := by
  rcases dropTrail_append_ex pr l with ⟨r, hr⟩
  rw [hr]
  exact hasSubstr_append_left p (dropTrail pr l) r h

theorem hasSubstr_pyStrip (p l : List Char)
    (h : hasSubstr p (pyStrip l) = true) : hasSubstr p l = true := by
  unfold pyStrip at h
  exact hasSubstr_dropWhile p pySpace l
    (hasSubstr_dropTrail p pySpace (l.dropWhile pySpace) h)

theorem lstartsWith_collapse (p : List Char)
    (hnw : ∀ c ∈ p, pySpace c = false) :
    ∀ cs : List Char, lstartsWith p (collapseGo false cs) = true →
      lstartsWith p cs = true := by
  induction p with
  | nil => intro cs _; rfl
  | cons e p2 ih =>
      intro cs h
      have he : pySpace e = false := hnw e (List.mem_cons_self _ _)
      cases cs with
      | nil => cases h
      | cons d cs2 =>
          by_cases hd : pySpace d = true
          · have hstep : collapseGo false (d :: cs2)
                = ' ' :: collapseGo true cs2 := by simp [collapseGo, hd]
            rw [hstep] at h
            have hh : ((e == ' ') && lstartsWith p2 (collapseGo true cs2))
                = true := h
            have hne : (e == ' ') = false := by
              refine beq_eq_false_iff_ne.mpr (fun hcon => ?_)
              rw [hcon] at he
              cases he.symm.trans (by rfl : pySpace ' ' = true)
            rw [hne, Bool.false_and] at hh
            cases hh
          · have hstep : collapseGo false (d :: cs2)
                = d :: collapseGo false cs2 := by simp [collapseGo, hd]
            rw [hstep] at h
            have hh : ((e == d) && lstartsWith p2 (collapseGo false cs2))
                = true := h
            rcases Bool.and_eq_true_iff.mp hh with ⟨h1, h2⟩
            show ((e == d) && lstartsWith p2 cs2) = true
            rw [h1, ih (fun c hc => hnw c (List.mem_cons_of_mem _ hc)) cs2 h2,
              Bool.and_self]

theorem hasSubstr_collapse (p : List Char) (hne : p ≠ [])
    (hnw : ∀ c ∈ p, pySpace c = false) (l : List Char) :
    ∀ flag : Bool,
      hasSubstr p (collapseGo flag l) = true → hasSubstr p l = true := by
  induction l with
  | nil =>
      intro flag h
      rcases p with _ | ⟨e, p2⟩
      · exact absurd rfl hne
      · cases h
  | cons c cs ih =>
      intro flag h
      by_cases hc : pySpace c = true
      · cases flag
        · have hstep : collapseGo false (c :: cs)
              = ' ' :: collapseGo true cs := by simp [collapseGo, hc]
          rw [hstep] at h
          have hh : (lstartsWith p (' ' :: collapseGo true cs)
              || hasSubstr p (collapseGo true cs)) = true := h
          have hfirst : lstartsWith p (' ' :: collapseGo true cs) = false := by
            rcases p with _ | ⟨e, p2⟩
            · exact absurd rfl hne
            · have he : pySpace e = false := hnw e (List.mem_cons_self _ _)
              have hne2 : (e == ' ') = false := by
                refine beq_eq_false_iff_ne.mpr (fun hcon => ?_)
                rw [hcon] at he
                cases he.symm.trans (by rfl : pySpace ' ' = true)
              show ((e == ' ') && lstartsWith p2 (collapseGo true cs)) = false
              rw [hne2, Bool.false_and]
          rw [hfirst, Bool.false_or] at hh
          have := ih true hh
          show (lstartsWith p (c :: cs) || hasSubstr p cs) = true
          rw [this, Bool.or_true]
        · have hstep : collapseGo true (c :: cs) = collapseGo true cs := by
            simp [collapseGo, hc]
          rw [hstep] at h
          have := ih true h
          show (lstartsWith p (c :: cs) || hasSubstr p cs) = true
          rw [this, Bool.or_true]
      · have hstep : collapseGo flag (c :: cs) = c :: collapseGo false cs := by
          cases flag <;> simp [collapseGo, hc]
        rw [hstep] at h
        have hh : (lstartsWith p (c :: collapseGo false cs)
            || hasSubstr p (collapseGo false cs)) = true := h
        rcases (by simpa using hh :
            lstartsWith p (c :: collapseGo false cs) = true
              ∨ hasSubstr p (collapseGo false cs) = true) with h1 | h2
        · rcases p with _ | ⟨e, p2⟩
          · exact absurd rfl hne
          · have hh1 : ((e == c) && lstartsWith p2 (collapseGo false cs))
                = true := h1
            rcases Bool.and_eq_true_iff.mp hh1 with ⟨hec, hp2⟩
            have hp2cs : lstartsWith p2 cs = true :=
              lstartsWith_collapse p2
                (fun x hx => hnw x (List.mem_cons_of_mem _ hx)) cs hp2
            show (lstartsWith (e :: p2) (c :: cs)
                || hasSubstr (e :: p2) cs) = true
            have : ((e == c) && lstartsWith p2 cs) = true := by
              rw [hec, hp2cs, Bool.and_self]
            rw [show lstartsWith (e :: p2) (c :: cs)
                = ((e == c) && lstartsWith p2 cs) from rfl, this, Bool.true_or]
        · have := ih false h2
          show (lstartsWith p (c :: cs) || hasSubstr p cs) = true
          rw [this, Bool.or_true]

/-- C4 (amended: the whitespace-run and placeholder-freedom guarantees hold
for inputs that contain no placeholder occurrence): the normalizer maps
empty or absent input to the empty string, never has leading or trailing
whitespace, and — when the input is placeholder-free — leaves neither a
run of two whitespace characters nor a placeholder occurrence. -/
theorem clean_text_normalizes (t : Option (List Char)) :
    cleanTextO none = [] ∧
    cleanTextO (some []) = [] ∧
    (∀ c, (cleanTextO t).head? = some c → pySpace c = false) ∧
    (∀ c, (cleanTextO t).getLast? = some c → pySpace c = false) ∧
    (hasSubstr placeholderTok (t.getD []) = false →
      noTwoWS (cleanTextO t) = true ∧
      hasSubstr placeholderTok (cleanTextO t) = false) := by
  have hPne : placeholderTok ≠ [] := by decide
  have hPnw : ∀ c ∈ placeholderTok, pySpace c = false := by decide
  refine ⟨rfl, rfl, ?_, ?_, ?_⟩
  · intro c hc
    rcases t with _ | s
    · cases hc
    · simp only [cleanTextO, cleanText] at hc
      by_cases hs : s.isEmpty = true
      · rw [if_pos hs] at hc; cases hc
      · rw [if_neg hs] at hc
        unfold pyStrip at hc
        exact head_dropWhile_not pySpace _ c
          (head_dropTrail pySpace _ c hc)
  · intro c hc
    rcases t with _ | s
    · cases hc
    · simp only [cleanTextO, cleanText] at hc
      by_cases hs : s.isEmpty = true
      · rw [if_pos hs] at hc; cases hc
      · rw [if_neg hs] at hc
        unfold pyStrip at hc
        exact getLast_dropTrail pySpace _ c hc
  · intro hnp
    rcases t with _ | s
    · exact ⟨rfl, rfl⟩
    · rw [Option.getD_some] at hnp
      simp only [cleanTextO, cleanText]
      by_cases hs : s.isEmpty = true
      · rw [if_pos hs]
        exact ⟨rfl, rfl⟩
      · rw [if_neg hs]
        have h1 : hasSubstr placeholderTok (pyStrip s) = false := by
          refine Bool.eq_false_iff.mpr (fun hcon => ?_)
          rw [hasSubstr_pyStrip _ s hcon] at hnp
          cases hnp
        have h2 : hasSubstr placeholderTok (collapseWS (pyStrip s)) = false := by
          refine Bool.eq_false_iff.mpr (fun hcon => ?_)
          rw [hasSubstr_collapse placeholderTok hPne hPnw (pyStrip s) false hcon]
            at h1
          cases h1
        have h3 : removeP (collapseWS (pyStrip s)) = collapseWS (pyStrip s) :=
          removeP_id _ h2
        rw [h3]
        constructor
        · unfold pyStrip
          exact noTwoWS_dropTrail pySpace _
            (noTwoWS_dropWhile pySpace _ (noTwoWS_collapseGo (pyStrip s) false))
        · refine Bool.eq_false_iff.mpr (fun hcon => ?_)
          rw [hasSubstr_pyStrip _ _ hcon] at h2
          cases h2

/-- Witness for C4's conditional guarantees at a placeholder-free input. -/
theorem clean_text_normalizes_witness :
    noTwoWS (cleanTextO (some ("  a   b  ".data))) = true ∧
    hasSubstr placeholderTok (cleanTextO (some ("  a   b  ".data))) = false :=
  (clean_text_normalizes (some ("  a   b  ".data))).2.2.2.2 (by decide)

/-- C4 as frozen is false: removing a placeholder between two spaces leaves
a double space, and removing a placeholder inside a decoy bracket pair
manufactures a new placeholder occurrence in the output. -/
theorem clean_text_cex :
    cleanText ("a [‚óè] b".data) = ("a  b".data) ∧
    noTwoWS (cleanText ("a [‚óè] b".data)) = false ∧
    cleanText ("[‚[‚óè]óè]".data) = placeholderTok ∧
    hasSubstr placeholderTok (cleanText ("[‚[‚óè]óè]".data)) = true := by
  refine ⟨by decide, by decide, by decide, by decide⟩

end FinanceScraper
